import Mathlib

/-!
Verification development for the cross-source news verification engine of the
ChhattisgarhNewsBot repository (`src/news_verifier.py`, class `NewsVerifier`).

Modelling conventions:
* A Python article dict is the structure `Article`.  The five raw fields
  (`source`, `title`, `body`, `url`, `timestamp`) are `Option String`
  (`none` models an absent key, matching `dict.get(k, '')` / `dict[k]`).
  The keys written by `verify_with_sources` (`verified`, `source_count`,
  `sources`, `category`, `importance`) are modelled as presence-tracking
  fields; in a raw scraper article they are `false` / `none`.
* Python floats are modelled as exact rationals (`ℚ`); the decimal constants
  of the source (`0.7`, `0.3`, `0.8`, importance weights) are the
  corresponding rationals.
* `get_text_embedding` is modelled on its deterministic fallback path
  (`np.array([hash(text) % 1000])`, taken when the transformer model is
  unavailable, and also the documented degraded mode of spec section 4.1).
  Python's opaque string `hash` is a parameter `hashF : String → Nat`.
  `sklearn.cosine_similarity` of two 1-dimensional non-negative vectors is
  `1` when both are non-zero and `0` when either is the zero vector, which
  `cosineSim` encodes.
* The regular-expression battery of `extract_key_elements` is embedded by a
  small executable pattern engine (`Pat` / `tryMatch` / `findall`) with
  CPython `re` semantics for the constructs actually used: leftmost scan,
  first-alternative preference, greedy `+` / `{1,2}` with backtracking.
  The character classes `\w`, `\s`, `\d` are modelled over ASCII plus the
  Devanagari block (the scripts occurring in this code base), following
  CPython's classification (combining marks such as matras are not `\w`).
* In-place dict mutation by `verify_with_sources` is modelled by explicit
  state passing: articles are threaded as `(index, Article)` pairs and the
  pipeline returns both the post-run article pool and the verified output.
  A raised `KeyError` (`art['source']` on a dict with no such key) is an
  `Except.error`.
-/

set_option allowUnsafeReducibility true in
attribute [semireducible] Rat.add Rat.mul Rat.inv Rat.sub Rat.ofScientific

structure Article where
  source : Option String
  title : Option String
  body : Option String
  url : Option String
  timestamp : Option String
  verified : Bool
  source_count : Option Nat
  sources : Option (List String)
  category : Option String
  importance : Option ℚ
deriving DecidableEq

/-- A raw scraper article: only the five base fields, no verification keys. -/
def mkArticle (src title body url ts : Option String) : Article :=
  { source := src, title := title, body := body, url := url, timestamp := ts,
    verified := false, source_count := none, sources := none,
    category := none, importance := none }

/-- Python `f"{title} {body}"` with `dict.get(k, '')` defaults. -/
def textOf (a : Article) : String :=
  a.title.getD "" ++ " " ++ a.body.getD ""

/-- Python `str.lower()`.  Only ASCII letters change case in the texts in
scope (Devanagari is caseless), which is exactly what `Char.toLower` does. -/
def pyLower (s : String) : String :=
  (s.toList.map Char.toLower).asString

/-- Does `pre` occur at the very start of `l`? (code-point wise, as Python). -/
def startsWithChars : List Char → List Char → Bool
  | [], _ => true
  | _ :: _, [] => false
  | a :: as, c :: cs => a = c && startsWithChars as cs

/-- Python `needle in hay` on strings: contiguous code-point subsequence. -/
def hasSubChars (needle : List Char) : List Char → Bool
  | [] => needle.isEmpty
  | c :: cs => startsWithChars needle (c :: cs) || hasSubChars needle cs

/-- Python `needle in hay` for `String`. -/
def hasSub (needle hay : String) : Bool :=
  hasSubChars needle.toList hay.toList

def between (lo hi n : Nat) : Bool := decide (lo ≤ n ∧ n ≤ hi)

/-- CPython `re` word character (`\w`) over ASCII and the Devanagari block:
alphanumerics and underscore; Devanagari letters, signs OM/AVAGRAHA and
digits count, combining marks (matras, virama, nukta, candrabindu) do not. -/
def isPyWordChar (c : Char) : Bool :=
  let n := c.toNat
  between 48 57 n || between 65 90 n || between 97 122 n || decide (n = 95) ||
  between 0x904 0x939 n || decide (n = 0x93D) || decide (n = 0x950) ||
  between 0x958 0x961 n || between 0x966 0x96F n || between 0x971 0x97F n

/-- CPython `re` whitespace (`\s`), ASCII part. -/
def isPySpace (c : Char) : Bool :=
  let n := c.toNat
  decide (n = 32) || between 9 13 n

/-- CPython `re` digit (`\d`) over ASCII and Devanagari digits. -/
def isPyDigit (c : Char) : Bool :=
  let n := c.toNat
  between 48 57 n || between 0x966 0x96F n

/-- ASCII letter, for the character class `[A-Za-z\s]`. -/
def isAsciiLetterChar (c : Char) : Bool :=
  let n := c.toNat
  between 65 90 n || between 97 122 n

/-- Patterns: the regular-expression constructs used by
`extract_key_elements` (literals, single char class, greedy `+`, greedy
`{1,2}`, concatenation, ordered alternation). -/
inductive Pat where
  | lit : List Char → Pat
  | cls : (Char → Bool) → Pat
  | plus : (Char → Bool) → Pat
  | rep2 : (Char → Bool) → Pat
  | seq : Pat → Pat → Pat
  | alt : Pat → Pat → Pat

/-- Strip a literal from the front of the input, if present. -/
def charsPre : List Char → List Char → Option (List Char)
  | [], cs => some cs
  | _ :: _, [] => none
  | a :: as, c :: cs => if a = c then charsPre as cs else none

/-- Length of the maximal run of class characters at the front. -/
def runLen (p : Char → Bool) : List Char → Nat
  | [] => 0
  | c :: cs => if p c then runLen p cs + 1 else 0

/-- All ways to match a pattern at the current position, as
(consumed, rest) pairs in backtracking priority order: greedy repetitions
try longer matches first, alternations try the left branch first.  The
head of the returned list is the match the CPython engine commits to. -/
def tryMatch : Pat → List Char → List (List Char × List Char)
  | .lit s, cs =>
      match charsPre s cs with
      | some rest => [(s, rest)]
      | none => []
  | .cls _, [] => []
  | .cls p, c :: cs => if p c then [([c], cs)] else []
  | .plus p, cs =>
      let m := runLen p cs
      (List.range m).map (fun k => (cs.take (m - k), cs.drop (m - k)))
  | .rep2 p, cs =>
      let m := min (runLen p cs) 2
      (List.range m).map (fun k => (cs.take (m - k), cs.drop (m - k)))
  | .seq a b, cs =>
      (tryMatch a cs).flatMap
        (fun pr => (tryMatch b pr.2).map (fun qr => (pr.1 ++ qr.1, qr.2)))
  | .alt a b, cs => tryMatch a cs ++ tryMatch b cs

/-- Scan for non-overlapping matches left to right, continuing after each
match, as `re.findall` does.  The fuel argument bounds the scan (every
match of the patterns in scope consumes at least one character, so
`length + 1` fuel is always enough). -/
def findallAux (p : Pat) : Nat → List Char → List (List Char)
  | _, [] => []
  | 0, _ :: _ => []
  | fuel + 1, c :: cs =>
      match (tryMatch p (c :: cs)).head? with
      | some (m, rest) =>
          if m.isEmpty then findallAux p fuel cs else m :: findallAux p fuel rest
      | none => findallAux p fuel cs

def findall (p : Pat) (cs : List Char) : List (List Char) :=
  findallAux p (cs.length + 1) cs

def findallStr (p : Pat) (cs : List Char) : List String :=
  (findall p cs).map List.asString

def litP (s : String) : Pat := .lit s.toList

def altListP : Pat → List Pat → Pat
  | p, [] => p
  | p, q :: qs => .alt p (altListP q qs)

def litsP (s : String) (ss : List String) : Pat := altListP (litP s) (ss.map litP)

def wordPlusLit (s : String) : Pat := .seq (.plus isPyWordChar) (litP s)

def where_pat1 : Pat :=
  litsP "रायपुर" ["बिलासपुर", "दुर्ग", "भिलाई", "कोरबा", "राजनांदगांव", "जगदलपुर", "अंबिकापुर"]

def where_pat2 : Pat :=
  litsP "छत्तीसगढ़" ["बस्तर", "सरगुजा", "दंतेवाड़ा", "नारायणपुर", "बीजापुर", "सुकमा"]

def where_pat3 : Pat :=
  altListP (wordPlusLit "पुर") [wordPlusLit "गढ़", wordPlusLit "नगर", wordPlusLit "बाद"]

def who_pat1 : Pat :=
  litsP "मुख्यमंत्री" ["मंत्री", "विधायक", "सांसद", "कलेक्टर", "एसपी"]

def who_pat2 : Pat :=
  litsP "पुलिस" ["सीबीआई", "ईडी", "आईटी", "प्रशासन"]

def who_pat3 : Pat :=
  .seq (.plus (fun c => isAsciiLetterChar c || isPySpace c))
    (.seq (.cls isPySpace) (litsP "सिंह" ["शर्मा", "वर्मा", "गुप्ता", "अग्रवाल"]))

def what_pat1 : Pat :=
  litsP "गिरफ्तार" ["हत्या", "चोरी", "ठगी", "दुर्घटना", "हादसा"]

def what_pat2 : Pat :=
  litsP "योजना" ["परियोजना", "निर्माण", "उद्घाटन", "शुरुआत"]

def what_pat3 : Pat :=
  litsP "बैठक" ["सम्मेलन", "कार्यक्रम", "समारोह"]

def when_pat1 : Pat :=
  .seq (.rep2 isPyDigit)
    (.seq (.cls isPySpace)
      (litsP "जनवरी" ["फरवरी", "मार्च", "अप्रैल", "मई", "जून", "जुलाई", "अगस्त",
                       "सितंबर", "अक्टूबर", "नवंबर", "दिसंबर"]))

def when_pat2 : Pat :=
  altListP (litP "आज")
    [litP "कल", litP "परसों",
     .seq (litP "बीते") (.seq (.cls isPySpace) (.plus isPyWordChar)),
     .seq (litP "गुजरे") (.seq (.cls isPySpace) (.plus isPyWordChar))]

structure KeyElements where
  who : List String
  what : List String
  whereL : List String
  whenL : List String
deriving DecidableEq

/-- `extract_key_elements`: run the pattern battery over `f"{title} {body}"`,
extending each field with the matches of its patterns in order. -/
def extract_key_elements (a : Article) : KeyElements :=
  let cs := (textOf a).toList
  { who := findallStr who_pat1 cs ++ findallStr who_pat2 cs ++ findallStr who_pat3 cs,
    what := findallStr what_pat1 cs ++ findallStr what_pat2 cs ++ findallStr what_pat3 cs,
    whereL := findallStr where_pat1 cs ++ findallStr where_pat2 cs ++ findallStr where_pat3 cs,
    whenL := findallStr when_pat1 cs ++ findallStr when_pat2 cs }

/-- Fallback text embedding `np.array([hash(text) % 1000])`, a single
non-negative scalar; `hashF` stands for Python's opaque string hash. -/
def get_text_embedding (hashF : String → Nat) (text : String) : Nat :=
  hashF text % 1000

/-- `sklearn.cosine_similarity` of the two 1-dimensional embeddings:
`1` when both scalars are positive, `0` when either vector is zero
(sklearn normalises a zero vector to zero, giving a zero dot product). -/
def cosineSim (e1 e2 : Nat) : ℚ :=
  if e1 ≠ 0 ∧ e2 ≠ 0 then 1 else 0

/-- One key-element field's contribution: skipped (`none`) unless both
lists are non-empty (Python truthiness of the lists), otherwise the
Jaccard overlap of the two lists viewed as sets. -/
def jaccard (l1 l2 : List String) : Option ℚ :=
  if l1.isEmpty || l2.isEmpty then none
  else
    let common := (l1.toFinset ∩ l2.toFinset).card
    let total := (l1.toFinset ∪ l2.toFinset).card
    if total ≠ 0 then some ((common : ℚ) / (total : ℚ)) else none

/-- `calculate_similarity`: `0.7 * cosine + 0.3 * element_overlap`, where the
element overlap averages the Jaccard scores of the fields (iterated in dict
order who, what, where, when) that are non-empty on both sides, and is `0`
when no field qualifies. -/
def calculate_similarity (hashF : String → Nat) (a1 a2 : Article) : ℚ :=
  let e1 := get_text_embedding hashF (textOf a1)
  let e2 := get_text_embedding hashF (textOf a2)
  let cosSim := cosineSim e1 e2
  let k1 := extract_key_elements a1
  let k2 := extract_key_elements a2
  let parts := List.reduceOption
    [jaccard k1.who k2.who, jaccard k1.what k2.what,
     jaccard k1.whereL k2.whereL, jaccard k1.whenL k2.whenL]
  let elementSim := if parts.length ≠ 0 then parts.sum / (parts.length : ℚ) else 0
  cosSim * (7/10) + elementSim * (3/10)

def opinion_keywords : List String :=
  ["चाहिए", "कथित", "विचार", "राय", "मानना", "लगता", "संभावना",
   "अनुमान", "अटकल", "संदेह", "शायद", "हो सकता", "माना जा रहा",
   "सूत्रों के अनुसार", "अफवाह", "दावा", "आरोप"]

/-- `is_opinion_piece`: more than 2 opinion keywords occur in the
lower-cased `title body` text.  (`str.lower` only affects ASCII letters on
the texts in scope; Devanagari is caseless.) -/
def is_opinion_piece (a : Article) : Bool :=
  let text := pyLower (textOf a)
  decide (2 < (opinion_keywords.filter (fun k => hasSub (pyLower k) text)).length)

/-- `category_weights`, in the insertion order of the source dict. -/
def category_weights : List (String × List String) :=
  [("crime", ["अपराध", "गिरफ्तार", "हत्या", "चोरी", "ठगी", "फ्रॉड", "पुलिस", "सीबीआई"]),
   ("politics", ["नीति", "सरकार", "मुख्यमंत्री", "मंत्री", "विधायक", "चुनाव", "राजनीति"]),
   ("accident", ["दुर्घटना", "हादसा", "मौत", "घायल", "अस्पताल", "एम्बुलेंस"]),
   ("development", ["विकास", "परियोजना", "योजना", "निर्माण", "सड़क", "पुल", "अस्पताल"]),
   ("weather", ["मौसम", "बारिश", "तूफान", "बाढ़", "सूखा", "अलर्ट"]),
   ("health", ["स्वास्थ्य", "बीमारी", "डॉक्टर", "इलाज", "वैक्सीन", "अस्पताल"]),
   ("education", ["शिक्षा", "स्कूल", "कॉलेज", "परीक्षा", "छात्र", "शिक्षक"])]

/-- Number of keywords of one category occurring in the text. -/
def hitCount (text : String) (kws : List String) : Nat :=
  (kws.filter (fun k => hasSub (pyLower k) text)).length

/-- `importance_weights` (decimal constants as exact rationals). -/
def importance_weights : List (String × ℚ) :=
  [("crime", 3), ("accident", 14/5), ("politics", 5/2), ("development", 2),
   ("health", 9/5), ("weather", 3/2), ("education", 13/10), ("general", 1)]

/-- Python `max(xs, key=snd)` over a non-empty association list: fold that
replaces the current best only on a strictly greater value, so the first
element attaining the maximum wins. -/
def pyMaxSnd (x : String × Nat) (xs : List (String × Nat)) : String × Nat :=
  xs.foldl (fun acc p => if acc.2 < p.2 then p else acc) x

/-- `categorize_article`: score every category, keep the positive scores in
dict order, pick the first highest-scoring one (`max` over the dict), and
look its importance up (default 1.0); no positive score gives
`('general', 1.0)`. -/
def categorize_article (a : Article) : String × ℚ :=
  let text := pyLower (textOf a)
  let category_scores := category_weights.filterMap (fun p =>
    let s := hitCount text p.2
    if 0 < s then some (p.1, s) else none)
  match category_scores with
  | [] => ("general", 1)
  | x :: xs =>
      let best := (pyMaxSnd x xs).1
      (best, (List.lookup best importance_weights).getD 1)

/-- Python string comparison `s < t`: lexicographic on code points. -/
def charListLtB : List Char → List Char → Bool
  | [], [] => false
  | [], _ :: _ => true
  | _ :: _, [] => false
  | a :: as, b :: bs =>
      decide (a.toNat < b.toNat) || (decide (a.toNat = b.toNat) && charListLtB as bs)

def strLtB (s t : String) : Bool := charListLtB s.toList t.toList

/-- Python tuple comparison `(n1, s1) < (n2, s2)`. -/
def pairLt (p q : Nat × String) : Prop :=
  p.1 < q.1 ∨ (p.1 = q.1 ∧ strLtB p.2 q.2 = true)

instance (p q : Nat × String) : Decidable (pairLt p q) :=
  inferInstanceAs (Decidable (p.1 < q.1 ∨ (p.1 = q.1 ∧ strLtB p.2 q.2 = true)))

/-- Canonical-selection key `(len(x.get('body','')), x.get('timestamp',''))`. -/
def artKey (a : Article) : Nat × String :=
  ((a.body.getD "").length, a.timestamp.getD "")

/-- Python `max(group, key=artKey)`: first element with the lexicographically
greatest key. -/
def pyMaxBy (x : Nat × Article) (xs : List (Nat × Article)) : Nat × Article :=
  xs.foldl (fun acc y => if pairLt (artKey acc.2) (artKey y.2) then y else acc) x

/-- The clustering threshold `0.8`. -/
def simThreshold : ℚ := 8/10

/-- The seed-and-absorb grouping loop of `verify_with_sources`, keeping only
groups of size at least 3 (the loop's `if len(group) >= 3` append).
Articles are `(original index, article)` pairs; the fuel argument makes the
recursion structural (the remaining unprocessed list shrinks every round,
so fuel = initial length always suffices). -/
def article_groupsF (hashF : String → Nat) :
    Nat → List (Nat × Article) → List (List (Nat × Article))
  | _, [] => []
  | 0, _ :: _ => []
  | fuel + 1, seed :: rest =>
      let p := rest.partition
        (fun c => decide (simThreshold < calculate_similarity hashF seed.2 c.2))
      let group := seed :: p.1
      if 3 ≤ group.length then group :: article_groupsF hashF fuel p.2
      else article_groupsF hashF fuel p.2

def article_groups (hashF : String → Nat) (il : List (Nat × Article)) :
    List (List (Nat × Article)) :=
  article_groupsF hashF il.length il

/-- The same grouping loop without the size-3 acceptance filter: every
seed's group, accepted or not. -/
def seedGroupsF (hashF : String → Nat) :
    Nat → List (Nat × Article) → List (List (Nat × Article))
  | _, [] => []
  | 0, _ :: _ => []
  | fuel + 1, seed :: rest =>
      let p := rest.partition
        (fun c => decide (simThreshold < calculate_similarity hashF seed.2 c.2))
      (seed :: p.1) :: seedGroupsF hashF fuel p.2

def seedGroups (hashF : String → Nat) (il : List (Nat × Article)) :
    List (List (Nat × Article)) :=
  seedGroupsF hashF il.length il

/-- The list comprehension `[art['source'] for art in group]`: `none` models
the `KeyError` raised on the first member without a `source` key. -/
def sourcesOf : List (Nat × Article) → Option (List String)
  | [] => some []
  | q :: qs =>
      match q.2.source, sourcesOf qs with
      | some s, some ss => some (s :: ss)
      | _, _ => none

/-- Per-group finalisation: select the canonical member (`max` by
`(len(body), timestamp)`), then write the verification keys onto that same
record (in-place mutation in Python, record update here), categorize it and
attach category and importance.  A member without a `source` key makes the
whole run raise (`Except.error`). -/
def finalizeGroup (g : List (Nat × Article)) : Except Unit (Nat × Article) :=
  match g with
  | [] => .error ()
  | x :: xs =>
      let best := pyMaxBy x xs
      match sourcesOf (x :: xs) with
      | none => .error ()
      | some srcs =>
          let a1 := { best.2 with
                      verified := true
                      source_count := some (x :: xs).length
                      sources := some srcs }
          let ci := categorize_article a1
          .ok (best.1, { a1 with category := some ci.1, importance := some ci.2 })

/-- Finalise the accepted groups in order; the first raised `KeyError`
aborts the run. -/
def finalizeAll : List (List (Nat × Article)) → Except Unit (List (Nat × Article))
  | [] => .ok []
  | g :: gs =>
      match finalizeGroup g with
      | .error e => .error e
      | .ok r =>
          match finalizeAll gs with
          | .error e => .error e
          | .ok rs => .ok (r :: rs)

/-- `verify_with_sources`: cluster, finalise every accepted cluster, and
return the post-run article pool (the input with every canonical member
mutated in place) together with the verified list. -/
def verify_with_sources (hashF : String → Nat) (articles : List Article) :
    Except Unit (List Article × List Article) :=
  match finalizeAll (article_groups hashF articles.enum) with
  | .error e => .error e
  | .ok finals =>
      .ok (finals.foldl (fun p q => p.set q.1 q.2) articles,
           finals.map (fun q => q.2))

/-- Ranking key `(x.get('importance', 1.0), x.get('timestamp', ''))`. -/
def rankKey (a : Article) : ℚ × String :=
  (a.importance.getD 1, a.timestamp.getD "")

/-- Python tuple comparison on ranking keys. -/
def rankLt (p q : ℚ × String) : Prop :=
  p.1 < q.1 ∨ (p.1 = q.1 ∧ strLtB p.2 q.2 = true)

instance (p q : ℚ × String) : Decidable (rankLt p q) :=
  inferInstanceAs (Decidable (p.1 < q.1 ∨ (p.1 = q.1 ∧ strLtB p.2 q.2 = true)))

/-- Stable descending insertion: the new element passes every earlier
element whose key is strictly smaller and stops before any earlier element
with an equal or larger key, which is exactly the order
`list.sort(key=..., reverse=True)` produces. -/
def insertDesc (a : Article) : List Article → List Article
  | [] => [a]
  | b :: bs => if rankLt (rankKey b) (rankKey a) then a :: b :: bs else b :: insertDesc a bs

def pySortDesc (l : List Article) : List Article :=
  l.foldl (fun acc a => insertDesc a acc) []

/-- `verify_news` (the JSON persistence aside): drop opinion pieces, run
`verify_with_sources` on the remaining pool, sort the verified articles by
`(importance, timestamp)` descending, and keep the first 8.  The first
component of the result is the post-run state of the raw article pool
(indices are kept from the raw list so that the in-place mutation of
canonical members lands on the right raw article). -/
def verify_news (hashF : String → Nat) (raw : List Article) :
    Except Unit (List Article × List Article) :=
  let factual := raw.enum.filter (fun p => !(is_opinion_piece p.2))
  match finalizeAll (article_groups hashF factual) with
  | .error e => .error e
  | .ok finals =>
      .ok (finals.foldl (fun p q => p.set q.1 q.2) raw,
           (pySortDesc (finals.map (fun q => q.2))).take 8)

instance {ε α : Type} [DecidableEq ε] [DecidableEq α] : DecidableEq (Except ε α) := fun x y =>
  match x, y with
  | .error a, .error b =>
      if h : a = b then .isTrue (by rw [h]) else .isFalse (fun hh => by cases hh; exact h rfl)
  | .error _, .ok _ => .isFalse (fun hh => by cases hh)
  | .ok _, .error _ => .isFalse (fun hh => by cases hh)
  | .ok a, .ok b =>
      if h : a = b then .isTrue (by rw [h]) else .isFalse (fun hh => by cases hh; exact h rfl)

/-- One concrete admissible behaviour of Python's opaque string hash, used to
close counterexamples and witnesses. -/
def hashOne : String → Nat := fun _ => 1

/-- Concrete article whose text matches none of the key-element patterns. -/
def artPlain (s : String) : Article :=
  mkArticle (some s) (some "abc") (some "xyz") none (some "t")

/-- Concrete article whose text matches the temporal pattern (the literal
branch of the `when` battery). -/
def artToday (s : String) : Article :=
  mkArticle (some s) (some "आज") (some "") none (some "2025-01-01")

/-- Like `artToday` but with no `source` key. -/
def artNoSource : Article :=
  mkArticle none (some "आज") (some "") none (some "t")

/-- Concrete article pair whose similarity is exactly the 0.8 threshold:
identical hash embeddings (cosine 1) and a single qualifying key-element
field with Jaccard overlap 1/3, giving 0.7 + 0.3/3 = 0.8. -/
def artBastar1 : Article :=
  mkArticle (some "s1") (some "बस्तर") (some "") none (some "t1")

def artBastar2 : Article :=
  mkArticle (some "s2") (some "बस्तर सरगुजा सुकमा") (some "") none (some "t2")

/-- Concrete article with one `politics` keyword hit and one `accident`
keyword hit and no other category hits. -/
def artTie : Article :=
  mkArticle (some "s") (some "चुनाव मौत") (some "") none none

/-- Grouping is fuel-insensitive once the fuel covers the list length. -/
theorem article_groupsF_fuel (hashF : String → Nat) :
    ∀ f₁ f₂ l, l.length ≤ f₁ → l.length ≤ f₂ →
      article_groupsF hashF f₁ l = article_groupsF hashF f₂ l := by
  intro f₁
  induction f₁ with
  | zero =>
      intro f₂ l h1 _
      have : l = [] := List.length_eq_zero.mp (Nat.le_antisymm h1 (Nat.zero_le _))
      subst this
      cases f₂ <;> rfl
  | succ f ih =>
      intro f₂ l h1 h2
      cases l with
      | nil => cases f₂ <;> rfl
      | cons seed rest =>
          cases f₂ with
          | zero => exact absurd h2 (by simp)
          | succ f₂' =>
              simp only [article_groupsF]
              have hr : (rest.partition (fun c =>
                  decide (simThreshold < calculate_similarity hashF seed.2 c.2))).2.length ≤
                  rest.length := by
                rw [List.partition_eq_filter_filter]
                exact List.length_filter_le _ rest
              have hrest : rest.length ≤ f := Nat.le_of_succ_le_succ h1
              have hrest2 : rest.length ≤ f₂' := Nat.le_of_succ_le_succ h2
              rw [ih f₂' _ (le_trans hr hrest) (le_trans hr hrest2)]

theorem seedGroupsF_fuel (hashF : String → Nat) :
    ∀ f₁ f₂ l, l.length ≤ f₁ → l.length ≤ f₂ →
      seedGroupsF hashF f₁ l = seedGroupsF hashF f₂ l := by
  intro f₁
  induction f₁ with
  | zero =>
      intro f₂ l h1 _
      have : l = [] := List.length_eq_zero.mp (Nat.le_antisymm h1 (Nat.zero_le _))
      subst this
      cases f₂ <;> rfl
  | succ f ih =>
      intro f₂ l h1 h2
      cases l with
      | nil => cases f₂ <;> rfl
      | cons seed rest =>
          cases f₂ with
          | zero => exact absurd h2 (by simp)
          | succ f₂' =>
              simp only [seedGroupsF]
              have hr : (rest.partition (fun c =>
                  decide (simThreshold < calculate_similarity hashF seed.2 c.2))).2.length ≤
                  rest.length := by
                rw [List.partition_eq_filter_filter]
                exact List.length_filter_le _ rest
              have hrest : rest.length ≤ f := Nat.le_of_succ_le_succ h1
              have hrest2 : rest.length ≤ f₂' := Nat.le_of_succ_le_succ h2
              rw [ih f₂' _ (le_trans hr hrest) (le_trans hr hrest2)]

/-- The accepted groups are exactly the seed groups of size at least 3. -/
theorem article_groupsF_eq_filter (hashF : String → Nat) :
    ∀ f l, article_groupsF hashF f l =
      (seedGroupsF hashF f l).filter (fun g => decide (3 ≤ g.length)) := by
  intro f
  induction f with
  | zero => intro l; cases l <;> rfl
  | succ f ih =>
      intro l
      cases l with
      | nil => rfl
      | cons seed rest =>
          simp only [article_groupsF, seedGroupsF, List.filter_cons, decide_eq_true_eq]
          rw [ih]

/-- With at most two articles, no group reaches size 3, so nothing is
accepted. -/
theorem article_groupsF_small (hashF : String → Nat) :
    ∀ f l, l.length ≤ 2 → article_groupsF hashF f l = [] := by
  intro f
  induction f with
  | zero => intro l _; cases l <;> rfl
  | succ f ih =>
      intro l hl
      cases l with
      | nil => rfl
      | cons seed rest =>
          simp only [article_groupsF]
          have hp1 : (rest.partition (fun c =>
              decide (simThreshold < calculate_similarity hashF seed.2 c.2))).1.length ≤
              rest.length := by
            rw [List.partition_eq_filter_filter]
            exact List.length_filter_le _ rest
          have hp2 : (rest.partition (fun c =>
              decide (simThreshold < calculate_similarity hashF seed.2 c.2))).2.length ≤
              rest.length := by
            rw [List.partition_eq_filter_filter]
            exact List.length_filter_le _ rest
          have hrest : rest.length ≤ 1 := by
            simpa using Nat.le_of_succ_le_succ hl
          have hno : ¬ 3 ≤ (seed :: (rest.partition (fun c =>
              decide (simThreshold < calculate_similarity hashF seed.2 c.2))).1).length := by
            simp only [List.length_cons]
            omega
          rw [if_neg hno]
          exact ih _ (le_trans hp2 (le_trans hrest (by omega)))

/-- C3: a seed's group is emitted as an accepted cluster exactly when it has
at least 3 members (`article_groups` keeps precisely the seed groups of size
at least 3), and on an input pool of exactly two articles `verify_news`
accepts nothing: the pool comes back unchanged and the output is empty. -/
theorem cluster_accepted_iff_three_members :
    (∀ (hashF : String → Nat) (il : List (Nat × Article)),
      article_groups hashF il =
        (seedGroups hashF il).filter (fun g => decide (3 ≤ g.length))) ∧
    (∀ (hashF : String → Nat) (a b : Article),
      verify_news hashF [a, b] = .ok ([a, b], [])) := by
  constructor
  · intro hashF il
    exact article_groupsF_eq_filter hashF il.length il
  · intro hashF a b
    have hb : ((([a, b] : List Article).enum).filter
        (fun p => !(is_opinion_piece p.2))).length ≤ 2 := by
      have h1 := List.length_filter_le (fun p => !(is_opinion_piece p.2))
        (([a, b] : List Article).enum)
      have h2 : (([a, b] : List Article).enum).length = 2 := by
        rw [List.enum_length]
        rfl
      omega
    simp only [verify_news, article_groups]
    rw [article_groupsF_small hashF _ _ hb]
    rfl

/-- C4: whenever `verify_news` returns (rather than raising), its verified
output list has at most 8 entries (the post-ranking `[:8]` truncation). -/
theorem verify_output_at_most_eight (hashF : String → Nat) (raw pool out : List Article)
    (h : verify_news hashF raw = .ok (pool, out)) : out.length ≤ 8 := by
  simp only [verify_news] at h
  rcases hf : finalizeAll (article_groups hashF
      ((raw.enum).filter (fun p => !(is_opinion_piece p.2)))) with e | finals
  · rw [hf] at h
    exact Except.noConfusion h
  · rw [hf] at h
    simp only [Except.ok.injEq, Prod.mk.injEq] at h
    rcases h with ⟨-, h2⟩
    rw [← h2, List.length_take]
    omega

/-- Witness for C4 at a concrete input: the empty batch returns an empty
(hence at-most-8) output. -/
theorem verify_output_at_most_eight_witness : ([] : List Article).length ≤ 8 :=
  verify_output_at_most_eight hashOne [] [] [] rfl

/-- C2 counterexample: a concrete seed/candidate pair with similarity equal
to exactly 0.8; the candidate is NOT absorbed into the seed's group (the
code tests `similarity > 0.8`, not `>= 0.8`), so the two articles end up in
two singleton seed groups. -/
theorem threshold_strict_counterexample :
    calculate_similarity hashOne artBastar1 artBastar2 = 8/10 ∧
    seedGroups hashOne [(0, artBastar1), (1, artBastar2)] =
      [[(0, artBastar1)], [(1, artBastar2)]] := by
  decide

/-- C2 amended: during clustering a subsequent unprocessed candidate is
added to the seed's group exactly when `similarity(seed, candidate) > 0.8`
(strictly); a candidate at exactly 0.8 is left for a later seed. -/
theorem candidate_absorbed_iff_above_threshold (hashF : String → Nat)
    (seed : Nat × Article) (rest : List (Nat × Article)) :
    ∃ tl, seedGroups hashF (seed :: rest) =
      (seed :: rest.filter (fun c =>
        decide (simThreshold < calculate_similarity hashF seed.2 c.2))) :: tl :=
  ⟨seedGroupsF hashF rest.length
      (rest.filter (not ∘ fun c =>
        decide (simThreshold < calculate_similarity hashF seed.2 c.2))),
   by simp only [seedGroups, List.length_cons, seedGroupsF,
        List.partition_eq_filter_filter]⟩

/-- A qualifying key-element field contributes a Jaccard score in [0,1]. -/
theorem jaccard_bounds (l1 l2 : List String) (q : ℚ) (h : jaccard l1 l2 = some q) :
    0 ≤ q ∧ q ≤ 1 := by
  simp only [jaccard] at h
  split_ifs at h with h1 h2
  injection h with h3
  subst h3
  have hpos : (0:ℚ) < ((l1.toFinset ∪ l2.toFinset).card : ℚ) := by
    exact_mod_cast Nat.pos_of_ne_zero h2
  constructor
  · exact div_nonneg (by positivity) hpos.le
  · rw [div_le_one hpos]
    exact_mod_cast Finset.card_le_card Finset.inter_subset_union

/-- The average of a list of values in [0,1] (0 for the empty list) lies in
[0,1]. -/
theorem avg_bounds (P : List ℚ) (h : ∀ x ∈ P, 0 ≤ x ∧ x ≤ 1) :
    0 ≤ (if P.length ≠ 0 then P.sum / (P.length : ℚ) else 0) ∧
    (if P.length ≠ 0 then P.sum / (P.length : ℚ) else 0) ≤ 1 := by
  split_ifs with hl
  · have hpos : (0:ℚ) < (P.length : ℚ) := by
      exact_mod_cast Nat.pos_of_ne_zero hl
    constructor
    · exact div_nonneg (List.sum_nonneg (fun x hx => (h x hx).1)) hpos.le
    · rw [div_le_one hpos]
      calc P.sum ≤ P.length • (1:ℚ) := List.sum_le_card_nsmul P 1 (fun x hx => (h x hx).2)
        _ = (P.length : ℚ) := by simp
  · norm_num

theorem combine_bounds (c e : ℚ) (hc : 0 ≤ c ∧ c ≤ 1) (he : 0 ≤ e ∧ e ≤ 1) :
    0 ≤ c * (7/10) + e * (3/10) ∧ c * (7/10) + e * (3/10) ≤ 1 := by
  constructor <;> nlinarith [hc.1, hc.2, he.1, he.2]

/-- C5: every similarity score is in the closed interval [0,1]: the cosine
part of the fallback embedder is 0 or 1, and the element overlap is an
average of Jaccard scores. -/
theorem similarity_in_unit_interval (hashF : String → Nat) (a b : Article) :
    0 ≤ calculate_similarity hashF a b ∧ calculate_similarity hashF a b ≤ 1 := by
  simp only [calculate_similarity]
  refine combine_bounds _ _ ?_ (avg_bounds _ ?_)
  · unfold cosineSim
    split_ifs <;> norm_num
  · intro x hx
    rw [List.reduceOption_mem_iff] at hx
    simp only [List.mem_cons, List.not_mem_nil, or_false] at hx
    rcases hx with h | h | h | h <;> exact jaccard_bounds _ _ x h.symm

theorem jaccard_comm (l1 l2 : List String) : jaccard l1 l2 = jaccard l2 l1 := by
  simp only [jaccard]
  rw [Bool.or_comm (l1.isEmpty), Finset.inter_comm (l1.toFinset),
    Finset.union_comm (l1.toFinset)]

theorem cosineSim_comm (e1 e2 : Nat) : cosineSim e1 e2 = cosineSim e2 e1 := by
  by_cases h1 : e1 = 0 <;> by_cases h2 : e2 = 0 <;> simp [cosineSim, h1, h2]

/-- C6: the similarity scorer is symmetric: the cosine part is symmetric
and every per-field Jaccard overlap is symmetric, with the same four fields
qualifying on both orders. -/
theorem similarity_symmetric (hashF : String → Nat) (a b : Article) :
    calculate_similarity hashF a b = calculate_similarity hashF b a := by
  simp only [calculate_similarity]
  rw [cosineSim_comm,
    jaccard_comm (extract_key_elements a).who,
    jaccard_comm (extract_key_elements a).what,
    jaccard_comm (extract_key_elements a).whereL,
    jaccard_comm (extract_key_elements a).whenL]

theorem charListLtB_irrefl : ∀ l, charListLtB l l = false := by
  intro l
  induction l with
  | nil => rfl
  | cons a as ih => simp [charListLtB, ih]

theorem charListLtB_trans : ∀ l1 l2 l3, charListLtB l1 l2 = true →
    charListLtB l2 l3 = true → charListLtB l1 l3 = true := by
  intro l1
  induction l1 with
  | nil =>
      intro l2 l3 h1 h2
      cases l2 with
      | nil => exact absurd h1 (by simp [charListLtB])
      | cons b bs =>
          cases l3 with
          | nil => exact absurd h2 (by simp [charListLtB])
          | cons c cs => rfl
  | cons a as ih =>
      intro l2 l3 h1 h2
      cases l2 with
      | nil => exact absurd h1 (by simp [charListLtB])
      | cons b bs =>
          cases l3 with
          | nil => exact absurd h2 (by simp [charListLtB])
          | cons c cs =>
              simp only [charListLtB, Bool.or_eq_true, Bool.and_eq_true,
                decide_eq_true_eq] at h1 h2 ⊢
              rcases h1 with h1 | ⟨e1, t1⟩ <;> rcases h2 with h2 | ⟨e2, t2⟩
              · exact Or.inl (by omega)
              · exact Or.inl (by omega)
              · exact Or.inl (by omega)
              · exact Or.inr ⟨by omega, ih bs cs t1 t2⟩

theorem charListLtB_trans_not : ∀ l1 l2 l3, charListLtB l1 l2 = true →
    charListLtB l3 l2 = false → charListLtB l1 l3 = true := by
  intro l1
  induction l1 with
  | nil =>
      intro l2 l3 h1 h2
      cases l2 with
      | nil => exact absurd h1 (by simp [charListLtB])
      | cons b bs =>
          cases l3 with
          | nil => exact absurd h2 (by simp [charListLtB])
          | cons c cs => rfl
  | cons a as ih =>
      intro l2 l3 h1 h2
      cases l2 with
      | nil => exact absurd h1 (by simp [charListLtB])
      | cons b bs =>
          cases l3 with
          | nil => exact absurd h2 (by simp [charListLtB])
          | cons c cs =>
              simp only [charListLtB, Bool.or_eq_true, Bool.and_eq_true,
                decide_eq_true_eq] at h1 ⊢
              have h2' : ¬ (c.toNat < b.toNat ∨ (c.toNat = b.toNat ∧
                  charListLtB cs bs = true)) := by
                intro hc
                rw [show charListLtB (c :: cs) (b :: bs) =
                    (decide (c.toNat < b.toNat) ||
                     (decide (c.toNat = b.toNat) && charListLtB cs bs)) from rfl] at h2
                simp only [Bool.or_eq_false_iff, Bool.and_eq_false_iff,
                  decide_eq_false_iff_not] at h2
                rcases hc with hc | ⟨hc1, hc2⟩
                · exact h2.1 hc
                · rcases h2.2 with h3 | h3
                  · exact h3 hc1
                  · rw [hc2] at h3; exact Bool.noConfusion h3
              push_neg at h2'
              rcases h1 with h1 | ⟨e1, t1⟩
              · exact Or.inl (by omega)
              · rcases Nat.lt_or_ge b.toNat c.toNat with hbc | hbc
                · exact Or.inl (by omega)
                · have hbe : b.toNat = c.toNat := by omega
                  have := h2'.2 (by omega)
                  exact Or.inr ⟨by omega, ih bs cs t1 (by simpa using this)⟩

theorem pairLt_irrefl (k : Nat × String) : ¬ pairLt k k := by
  unfold pairLt
  rintro (h | ⟨-, h⟩)
  · omega
  · rw [strLtB, charListLtB_irrefl] at h
    exact Bool.noConfusion h

theorem pairLt_trans {a b c : Nat × String} (h1 : pairLt a b) (h2 : pairLt b c) :
    pairLt a c := by
  unfold pairLt at *
  rcases h1 with h1 | ⟨e1, s1⟩ <;> rcases h2 with h2 | ⟨e2, s2⟩
  · exact Or.inl (lt_trans h1 h2)
  · exact Or.inl (e2 ▸ h1)
  · exact Or.inl (e1 ▸ h2)
  · exact Or.inr ⟨e1.trans e2, charListLtB_trans _ _ _ s1 s2⟩

theorem pairLt_of_lt_of_not_lt {a b c : Nat × String} (h1 : pairLt a b)
    (h2 : ¬ pairLt c b) : pairLt a c := by
  unfold pairLt at *
  have h2a : ¬ c.1 < b.1 := fun hc => h2 (Or.inl hc)
  have h2b : c.1 = b.1 → ¬ strLtB c.2 b.2 = true := fun he hs => h2 (Or.inr ⟨he, hs⟩)
  rcases h1 with h1 | ⟨e1, s1⟩
  · rcases Nat.lt_or_ge b.1 c.1 with hbc | hbc
    · exact Or.inl (lt_trans h1 hbc)
    · have : b.1 = c.1 := Nat.le_antisymm (Nat.not_lt.mp h2a) hbc
      exact Or.inl (this ▸ h1)
  · rcases Nat.lt_or_ge b.1 c.1 with hbc | hbc
    · exact Or.inl (e1 ▸ hbc)
    · have hbe : b.1 = c.1 := Nat.le_antisymm (Nat.not_lt.mp h2a) hbc
      have hcb : strLtB c.2 b.2 = false :=
        Bool.not_eq_true _ ▸ (h2b hbe.symm)
      exact Or.inr ⟨e1.trans hbe, charListLtB_trans_not _ _ _ s1 hcb⟩

theorem pyMaxBy_mem : ∀ (xs : List (Nat × Article)) (x : Nat × Article),
    pyMaxBy x xs ∈ x :: xs := by
  intro xs
  induction xs with
  | nil => intro x; simp [pyMaxBy]
  | cons p ps ih =>
      intro x
      have hstep : pyMaxBy x (p :: ps) =
          pyMaxBy (if pairLt (artKey x.2) (artKey p.2) then p else x) ps := rfl
      rw [hstep]
      by_cases h : pairLt (artKey x.2) (artKey p.2)
      · rw [if_pos h]
        exact List.mem_cons_of_mem x (ih p)
      · rw [if_neg h]
        rcases List.mem_cons.mp (ih x) with h2 | h2
        · rw [h2]
          exact List.mem_cons_self x (p :: ps)
        · exact List.mem_cons_of_mem _ (List.mem_cons_of_mem _ h2)

theorem pyMaxBy_max : ∀ (xs : List (Nat × Article)) (x : Nat × Article),
    ∀ m ∈ x :: xs, ¬ pairLt (artKey (pyMaxBy x xs).2) (artKey m.2) := by
  intro xs
  induction xs with
  | nil =>
      intro x m hm
      rcases List.mem_cons.mp hm with h | h
      · subst h
        simpa [pyMaxBy] using pairLt_irrefl (artKey m.2)
      · cases h
  | cons p ps ih =>
      intro x m hm
      have hstep : pyMaxBy x (p :: ps) =
          pyMaxBy (if pairLt (artKey x.2) (artKey p.2) then p else x) ps := rfl
      rw [hstep]
      by_cases h : pairLt (artKey x.2) (artKey p.2)
      · rw [if_pos h]
        rcases List.mem_cons.mp hm with h1 | h1
        · subst h1
          intro hc
          exact ih p p (List.mem_cons_self _ _) (pairLt_trans hc h)
        · exact ih p m h1
      · rw [if_neg h]
        rcases List.mem_cons.mp hm with h1 | h1
        · subst h1
          exact ih m m (List.mem_cons_self _ _)
        · rcases List.mem_cons.mp h1 with h2 | h2
          · subst h2
            intro hc
            exact ih x x (List.mem_cons_self _ _) (pairLt_of_lt_of_not_lt hc h)
          · exact ih x m (List.mem_cons_of_mem _ h2)

/-- C8: within a cluster the canonical member is `max` by the key
`(len(body), timestamp)`: it is a member, no member has a longer body, and
amongst members with the same body length none has a later timestamp; the
article emitted by `finalizeGroup` is exactly that member (same index and
same five base fields) with the verification keys written onto it. -/
theorem canonical_selection_spec (x : Nat × Article) (xs : List (Nat × Article)) :
    pyMaxBy x xs ∈ x :: xs ∧
    (∀ m ∈ x :: xs,
      (m.2.body.getD "").length ≤ ((pyMaxBy x xs).2.body.getD "").length) ∧
    (∀ m ∈ x :: xs,
      (m.2.body.getD "").length = ((pyMaxBy x xs).2.body.getD "").length →
        strLtB ((pyMaxBy x xs).2.timestamp.getD "") (m.2.timestamp.getD "") = false) ∧
    (∀ r, finalizeGroup (x :: xs) = .ok r →
      r.1 = (pyMaxBy x xs).1 ∧ r.2.source = (pyMaxBy x xs).2.source ∧
      r.2.title = (pyMaxBy x xs).2.title ∧ r.2.body = (pyMaxBy x xs).2.body ∧
      r.2.timestamp = (pyMaxBy x xs).2.timestamp ∧ r.2.verified = true) := by
  refine ⟨pyMaxBy_mem xs x, ?_, ?_, ?_⟩
  · intro m hm
    have h := pyMaxBy_max xs x m hm
    simp only [pairLt, artKey, not_or] at h
    exact Nat.not_lt.mp h.1
  · intro m hm he
    have h := pyMaxBy_max xs x m hm
    simp only [pairLt, artKey, not_or, not_and] at h
    exact Bool.not_eq_true _ ▸ (h.2 he.symm)
  · intro r hr
    simp only [finalizeGroup] at hr
    rcases hs : sourcesOf (x :: xs) with _ | srcs
    · rw [hs] at hr
      exact Except.noConfusion hr
    · rw [hs] at hr
      simp only [Except.ok.injEq] at hr
      subst hr
      exact ⟨rfl, rfl, rfl, rfl, rfl, rfl⟩

/-- Witness for C8 at a concrete two-member cluster with equal body lengths:
the member with the later timestamp is selected. -/
theorem canonical_selection_witness :
    strLtB ((pyMaxBy (0, artBastar1) [(1, artBastar2)]).2.timestamp.getD "")
      (artBastar1.timestamp.getD "") = false :=
  (canonical_selection_spec (0, artBastar1) [(1, artBastar2)]).2.2.1
    (0, artBastar1) (by decide) (by decide)

/-- Python `max` by value over a non-empty association list: the result
occurs in the list, every value before its occurrence is strictly smaller
(first-wins tie break), and no value anywhere exceeds it. -/
theorem pyMaxSnd_spec : ∀ (xs : List (String × Nat)) (x : String × Nat),
    ∃ pre suf, x :: xs = pre ++ (pyMaxSnd x xs) :: suf ∧
      (∀ q ∈ pre, q.2 < (pyMaxSnd x xs).2) ∧
      (∀ q ∈ x :: xs, q.2 ≤ (pyMaxSnd x xs).2) := by
  intro xs
  induction xs with
  | nil =>
      intro x
      exact ⟨[], [], rfl, by simp, by simp [pyMaxSnd]⟩
  | cons p ps ih =>
      intro x
      have hstep : pyMaxSnd x (p :: ps) = pyMaxSnd (if x.2 < p.2 then p else x) ps := rfl
      by_cases h : x.2 < p.2
      · obtain ⟨pre, suf, hsplit, hpre, hmax⟩ := ih p
        rw [hstep, if_pos h]
        refine ⟨x :: pre, suf, ?_, ?_, ?_⟩
        · rw [List.cons_append, ← hsplit]
        · intro q hq
          rcases List.mem_cons.mp hq with rfl | hq
          · exact lt_of_lt_of_le h (hmax p (List.mem_cons_self _ _))
          · exact hpre q hq
        · intro q hq
          rcases List.mem_cons.mp hq with rfl | hq
          · exact le_of_lt (lt_of_lt_of_le h (hmax p (List.mem_cons_self _ _)))
          · exact hmax q hq
      · obtain ⟨pre, suf, hsplit, hpre, hmax⟩ := ih x
        rw [hstep, if_neg h]
        cases pre with
        | nil =>
            simp only [List.nil_append] at hsplit
            injection hsplit with hx hsuf
            refine ⟨[], p :: ps, by simp [← hx], by simp, ?_⟩
            intro q hq
            rcases List.mem_cons.mp hq with rfl | hq
            · exact hmax q (List.mem_cons_self _ _)
            · rcases List.mem_cons.mp hq with rfl | hq
              · exact le_trans (Nat.not_lt.mp h) (hmax x (List.mem_cons_self _ _))
              · exact hmax q (List.mem_cons_of_mem _ hq)
        | cons hd pre' =>
            injection hsplit with ha hps
            rw [List.append_eq] at hps
            have hxlt := hpre hd (List.mem_cons_self _ _)
            rw [← ha] at hxlt
            refine ⟨x :: p :: pre', suf, ?_, ?_, ?_⟩
            · simp only [List.cons_append]
              rw [← hps]
            · intro q hq
              rcases List.mem_cons.mp hq with rfl | hq
              · exact hxlt
              · rcases List.mem_cons.mp hq with rfl | hq
                · exact lt_of_le_of_lt (Nat.not_lt.mp h) hxlt
                · exact hpre q (ha ▸ List.mem_cons_of_mem hd hq)
            · intro q hq
              rcases List.mem_cons.mp hq with rfl | hq
              · exact hmax q (List.mem_cons_self _ _)
              · rcases List.mem_cons.mp hq with rfl | hq
                · exact le_trans (Nat.not_lt.mp h) (hmax x (List.mem_cons_self _ _))
                · exact hmax q (List.mem_cons_of_mem _ hq)

/-- The positive-score selection of `categorize_article` as a filter over
the fully scored category list. -/
theorem filterMap_scores (text : String) : ∀ (L : List (String × List String)),
    L.filterMap (fun p =>
      let s := hitCount text p.2
      if 0 < s then some (p.1, s) else none) =
    (L.map (fun p => (p.1, hitCount text p.2))).filter (fun q => decide (0 < q.2)) := by
  intro L
  induction L with
  | nil => rfl
  | cons a L ih =>
      simp only [List.filterMap_cons, List.map_cons, List.filter_cons]
      by_cases h : 0 < hitCount text a.2
      · simp [h, ih]
      · simp [h, ih]

theorem map_split {α β : Type} (f : α → β) : ∀ (L : List α) (A : List β) (M : β) (B : List β),
    L.map f = A ++ M :: B → ∃ LA c LB, L = LA ++ c :: LB ∧ LA.map f = A ∧ f c = M := by
  intro L
  induction L with
  | nil =>
      intro A M B h
      simp only [List.map_nil] at h
      cases A <;> simp at h
  | cons a L ih =>
      intro A M B h
      cases A with
      | nil =>
          simp only [List.map_cons, List.nil_append] at h
          injection h with h1 h2
          exact ⟨[], a, L, rfl, rfl, h1⟩
      | cons a' A' =>
          simp only [List.map_cons, List.cons_append] at h
          injection h with h1 h2
          obtain ⟨LA, c, LB, hl, hm, hc⟩ := ih A' M B h2
          exact ⟨a :: LA, c, LB, by simp [hl], by simp [hm, h1], hc⟩

theorem filter_split {α : Type} (p : α → Bool) : ∀ (S A B : List α) (M : α),
    S.filter p = A ++ M :: B →
      ∃ SA SB, S = SA ++ M :: SB ∧ SA.filter p = A ∧ p M = true := by
  intro S
  induction S with
  | nil =>
      intro A B M h
      simp only [List.filter_nil] at h
      cases A <;> simp at h
  | cons a S ih =>
      intro A B M h
      by_cases hp : p a
      · rw [List.filter_cons_of_pos hp] at h
        cases A with
        | nil =>
            simp only [List.nil_append] at h
            injection h with h1 h2
            exact ⟨[], S, by simp [h1], by simp [h2], h1 ▸ hp⟩
        | cons a' A' =>
            injection h with h1 h2
            obtain ⟨SA, SB, hs, hf, hm⟩ := ih A' B M h2
            exact ⟨a :: SA, SB, by simp [hs],
              by rw [List.filter_cons_of_pos hp, hf, h1], hm⟩
      · rw [List.filter_cons_of_neg hp] at h
        obtain ⟨SA, SB, hs, hf, hm⟩ := ih A B M h
        exact ⟨a :: SA, SB, by simp [hs],
          by rw [List.filter_cons_of_neg hp, hf], hm⟩

theorem find_first_here {α : Type} (p : α → Bool) (M : α) (suf : List α) :
    ∀ pre : List α, (∀ q ∈ pre, p q = false) → p M = true →
      List.find? p (pre ++ M :: suf) = some M := by
  intro pre
  induction pre with
  | nil =>
      intro _ hM
      exact List.find?_cons_of_pos _ hM
  | cons a pre' ih =>
      intro hpre hM
      rw [List.cons_append,
        List.find?_cons_of_neg _ (by simp [hpre a (List.mem_cons_self _ _)])]
      exact ih (fun q hq => hpre q (List.mem_cons_of_mem _ hq)) hM

theorem foldr_max_le : ∀ (l : List Nat) (m : Nat),
    (∀ y ∈ l, y ≤ m) → l.foldr max 0 ≤ m := by
  intro l
  induction l with
  | nil => intro m _; exact Nat.zero_le m
  | cons a l ih =>
      intro m h
      simp only [List.foldr_cons]
      exact max_le (h a (List.mem_cons_self _ _))
        (ih m (fun y hy => h y (List.mem_cons_of_mem _ hy)))

theorem foldr_max_mem_le : ∀ (l : List Nat) (y : Nat), y ∈ l → y ≤ l.foldr max 0 := by
  intro l
  induction l with
  | nil => intro y hy; cases hy
  | cons a l ih =>
      intro y hy
      simp only [List.foldr_cons]
      rcases List.mem_cons.mp hy with rfl | hy
      · exact le_max_left _ _
      · exact le_trans (ih y hy) (le_max_right _ _)

theorem foldr_max_pos_mem : ∀ (l : List Nat), 0 < l.foldr max 0 → l.foldr max 0 ∈ l := by
  intro l
  induction l with
  | nil => intro h; simp at h
  | cons a l ih =>
      intro h
      simp only [List.foldr_cons] at h ⊢
      rcases le_or_lt (l.foldr max 0) a with hle | hlt
      · rw [max_eq_left hle]
        exact List.mem_cons_self _ _
      · rw [max_eq_right (le_of_lt hlt)] at h ⊢
        exact List.mem_cons_of_mem _ (ih h)

/-- Highest per-category keyword-hit count of a text (0 when no category
has any hit). -/
def maxHits (text : String) : Nat :=
  (category_weights.map (fun p => hitCount text p.2)).foldr max 0

theorem categorize_article_nil (a : Article)
    (h : (category_weights.map (fun p => (p.1, hitCount (pyLower (textOf a)) p.2))).filter
        (fun q => decide (0 < q.2)) = []) :
    categorize_article a = ("general", 1) := by
  simp only [categorize_article]
  rw [filterMap_scores, h]

theorem categorize_article_cons (a : Article) (x : String × Nat) (xs : List (String × Nat))
    (h : (category_weights.map (fun p => (p.1, hitCount (pyLower (textOf a)) p.2))).filter
        (fun q => decide (0 < q.2)) = x :: xs) :
    categorize_article a = ((pyMaxSnd x xs).1,
      (List.lookup (pyMaxSnd x xs).1 importance_weights).getD 1) := by
  simp only [categorize_article]
  rw [filterMap_scores, h]

/-- C7 (amended): `categorize_article` picks the category with the highest
keyword-hit count over `title+body`; ties are broken by the insertion order
of the category table, which is crime > politics > accident > development >
weather > health > education (NOT the order claimed in the spec, which
swaps politics/accident and weather/health); importance comes from the
fixed weight table; an article with no keyword hit at all is categorized
`general` with importance 1.0. -/
theorem categorize_first_max (a : Article) :
    (maxHits (pyLower (textOf a)) = 0 → categorize_article a = ("general", 1)) ∧
    (0 < maxHits (pyLower (textOf a)) →
      ∃ p, List.find? (fun q =>
          decide (hitCount (pyLower (textOf a)) q.2 = maxHits (pyLower (textOf a))))
          category_weights = some p ∧
        categorize_article a = (p.1, (List.lookup p.1 importance_weights).getD 1)) := by
  constructor
  · intro h0
    have hall : ∀ p ∈ category_weights, hitCount (pyLower (textOf a)) p.2 = 0 := by
      intro p hp
      have hle : hitCount (pyLower (textOf a)) p.2 ≤ maxHits (pyLower (textOf a)) := by
        apply foldr_max_mem_le
        exact List.mem_map.mpr ⟨p, hp, rfl⟩
      omega
    apply categorize_article_nil
    apply List.filter_eq_nil_iff.mpr
    intro q hq
    rcases List.mem_map.mp hq with ⟨p, hp, rfl⟩
    simp [hall p hp]
  · intro hpos
    have hmem : maxHits (pyLower (textOf a)) ∈
        category_weights.map (fun p => hitCount (pyLower (textOf a)) p.2) :=
      foldr_max_pos_mem _ hpos
    obtain ⟨pw, hpw, hpweq⟩ := List.mem_map.mp hmem
    have hmemS : (pw.1, hitCount (pyLower (textOf a)) pw.2) ∈
        category_weights.map (fun p => (p.1, hitCount (pyLower (textOf a)) p.2)) :=
      List.mem_map.mpr ⟨pw, hpw, rfl⟩
    have hmemF : (pw.1, hitCount (pyLower (textOf a)) pw.2) ∈
        (category_weights.map (fun p => (p.1, hitCount (pyLower (textOf a)) p.2))).filter
          (fun q => decide (0 < q.2)) := by
      refine List.mem_filter.mpr ⟨hmemS, ?_⟩
      simp only [decide_eq_true_eq]
      omega
    rcases hc : (category_weights.map
        (fun p => (p.1, hitCount (pyLower (textOf a)) p.2))).filter
        (fun q => decide (0 < q.2)) with _ | ⟨x, xs⟩
    · rw [hc] at hmemF
      cases hmemF
    · obtain ⟨pre, suf, hsplit, hpre, hmaxF⟩ := pyMaxSnd_spec xs x
      have hmemX : (pw.1, hitCount (pyLower (textOf a)) pw.2) ∈ x :: xs := hc ▸ hmemF
      have hMmaxS : ∀ q ∈ category_weights.map
          (fun p => (p.1, hitCount (pyLower (textOf a)) p.2)),
          q.2 ≤ (pyMaxSnd x xs).2 := by
        intro q hq
        by_cases hq0 : 0 < q.2
        · have hqF : q ∈ (category_weights.map
              (fun p => (p.1, hitCount (pyLower (textOf a)) p.2))).filter
              (fun q => decide (0 < q.2)) := by
            refine List.mem_filter.mpr ⟨hq, ?_⟩
            simp only [decide_eq_true_eq]
            exact hq0
          rw [hc] at hqF
          exact hmaxF q hqF
        · omega
      have hMin : pyMaxSnd x xs ∈ category_weights.map
          (fun p => (p.1, hitCount (pyLower (textOf a)) p.2)) := by
        have hmm : pyMaxSnd x xs ∈ x :: xs := by
          rw [hsplit]
          exact List.mem_append.mpr (Or.inr (List.mem_cons_self _ _))
        rw [← hc] at hmm
        exact (List.mem_filter.mp hmm).1
      have hM2 : (pyMaxSnd x xs).2 = maxHits (pyLower (textOf a)) := by
        apply le_antisymm
        · rcases List.mem_map.mp hMin with ⟨pw', hpw', hpe⟩
          apply foldr_max_mem_le
          refine List.mem_map.mpr ⟨pw', hpw', ?_⟩
          rw [← hpe]
        · calc maxHits (pyLower (textOf a))
              = hitCount (pyLower (textOf a)) pw.2 := hpweq.symm
            _ ≤ (pyMaxSnd x xs).2 := hMmaxS _ hmemS
      obtain ⟨SA, SB, hsS, hfSA, hpM⟩ :=
        filter_split (fun q : String × Nat => decide (0 < q.2))
        (category_weights.map (fun p => (p.1, hitCount (pyLower (textOf a)) p.2)))
        pre suf (pyMaxSnd x xs) (hc.trans hsplit)
      obtain ⟨CA, c, CB, hCW, hCA, hfc⟩ := map_split
        (fun p => (p.1, hitCount (pyLower (textOf a)) p.2))
        category_weights SA (pyMaxSnd x xs) SB hsS
      have hfind : List.find? (fun q =>
          decide (hitCount (pyLower (textOf a)) q.2 = maxHits (pyLower (textOf a))))
          category_weights = some c := by
        rw [hCW]
        apply find_first_here
        · intro q hq
          have hfq : (q.1, hitCount (pyLower (textOf a)) q.2) ∈ SA := by
            rw [← hCA]
            exact List.mem_map.mpr ⟨q, hq, rfl⟩
          by_cases hq0 : 0 < hitCount (pyLower (textOf a)) q.2
          · have hmemPre : (q.1, hitCount (pyLower (textOf a)) q.2) ∈ pre := by
              rw [← hfSA]
              refine List.mem_filter.mpr ⟨hfq, ?_⟩
              simp only [decide_eq_true_eq]
              exact hq0
            have hlt := hpre _ hmemPre
            rw [hM2] at hlt
            exact decide_eq_false (by omega)
          · exact decide_eq_false (by omega)
        · have hce := congrArg Prod.snd hfc
          exact decide_eq_true (by rw [show hitCount (pyLower (textOf a)) c.2 =
            (pyMaxSnd x xs).2 from hce, hM2])
      refine ⟨c, hfind, ?_⟩
      rw [categorize_article_cons a x xs hc]
      have hc1 : (pyMaxSnd x xs).1 = c.1 := (congrArg Prod.fst hfc).symm
      rw [hc1]

/-- C7 counterexample: the concrete article "चुनाव मौत" has exactly one
politics hit and one accident hit (a tie); the claimed priority order would
return ("accident", 2.8), but the code returns ("politics", 2.5) because
the category dict's insertion order puts politics before accident. -/
theorem categorize_tie_counterexample :
    hitCount (pyLower (textOf artTie)) ((List.lookup "politics" category_weights).getD []) = 1 ∧
    hitCount (pyLower (textOf artTie)) ((List.lookup "accident" category_weights).getD []) = 1 ∧
    categorize_article artTie = ("politics", 5/2) := by
  decide

/-- Witness for C7 at a concrete article with no category keyword hits. -/
theorem categorize_first_max_witness : categorize_article (artToday "w") = ("general", 1) :=
  (categorize_first_max (artToday "w")).1 (by decide)

theorem sourcesOf_none : ∀ (g : List (Nat × Article)) (p : Nat × Article),
    p ∈ g → p.2.source = none → sourcesOf g = none := by
  intro g
  induction g with
  | nil => intro p hp; cases hp
  | cons q qs ih =>
      intro p hp hs
      rcases List.mem_cons.mp hp with rfl | hp
      · simp only [sourcesOf, hs]
      · have hq := ih p hp hs
        simp only [sourcesOf, hq]
        cases q.2.source <;> rfl

theorem finalizeGroup_error (g : List (Nat × Article)) (h : sourcesOf g = none) :
    finalizeGroup g = .error () := by
  cases g with
  | nil => rfl
  | cons x xs =>
      simp only [finalizeGroup]
      rw [h]

theorem finalizeAll_error : ∀ (gs : List (List (Nat × Article))) (g : List (Nat × Article)),
    g ∈ gs → finalizeGroup g = .error () → finalizeAll gs = .error () := by
  intro gs
  induction gs with
  | nil => intro g hg; cases hg
  | cons g0 gs ih =>
      intro g hg he
      rcases List.mem_cons.mp hg with rfl | hg
      · simp only [finalizeAll, he]
      · rcases hf : finalizeGroup g0 with e | r
        · simp only [finalizeAll, hf]
        · simp only [finalizeAll, hf, ih g hg he]

/-- C10: a member of an accepted cluster with no `source` key makes the
whole run raise `KeyError` (modelled as `Except.error`), while a missing
`body` or `timestamp` is silently treated as the empty string by the
similarity scorer, the opinion filter, the canonical-selection key and the
ranking key. -/
theorem missing_source_raises (hashF : String → Nat) (raw : List Article)
    (g : List (Nat × Article)) (p : Nat × Article)
    (hg : g ∈ article_groups hashF ((raw.enum).filter (fun q => !(is_opinion_piece q.2))))
    (hp : p ∈ g) (hs : p.2.source = none) :
    verify_news hashF raw = .error () ∧
    (∀ b c : Article,
      calculate_similarity hashF { b with body := none } c =
        calculate_similarity hashF { b with body := some "" } c) ∧
    (∀ b : Article, is_opinion_piece { b with body := none } =
        is_opinion_piece { b with body := some "" }) ∧
    (∀ b : Article, artKey { b with body := none } = artKey { b with body := some "" }) ∧
    (∀ b : Article, artKey { b with timestamp := none } =
        artKey { b with timestamp := some "" }) ∧
    (∀ b : Article, rankKey { b with timestamp := none } =
        rankKey { b with timestamp := some "" }) := by
  refine ⟨?_, fun b c => rfl, fun b => rfl, fun b => rfl, fun b => rfl, fun b => rfl⟩
  simp only [verify_news]
  rw [finalizeAll_error _ g hg (finalizeGroup_error g (sourcesOf_none g p hp hs))]

/-- Witness for C10: a cluster of three identical articles, none carrying a
`source` key, makes the run raise. -/
theorem missing_source_raises_witness :
    verify_news hashOne [artNoSource, artNoSource, artNoSource] = .error () :=
  (missing_source_raises hashOne [artNoSource, artNoSource, artNoSource]
    [(0, artNoSource), (1, artNoSource), (2, artNoSource)] (0, artNoSource)
    (by decide) (by decide) rfl).1

/-- The five raw fields of an article (the scraper-produced record). -/
def articleBase (a : Article) :
    Option String × Option String × Option String × Option String × Option String :=
  (a.source, a.title, a.body, a.url, a.timestamp)

/-- Every member of every emitted group comes from the input pool. -/
theorem article_groupsF_members (hashF : String → Nat) :
    ∀ f il g, g ∈ article_groupsF hashF f il → ∀ q ∈ g, q ∈ il := by
  intro f
  induction f with
  | zero =>
      intro il g hg
      cases il <;> simp [article_groupsF] at hg
  | succ f ih =>
      intro il g hg q hq
      cases il with
      | nil => simp [article_groupsF] at hg
      | cons seed rest =>
          simp only [article_groupsF] at hg
          by_cases h3 : 3 ≤ (seed :: (rest.partition (fun c =>
              decide (simThreshold < calculate_similarity hashF seed.2 c.2))).1).length
          · rw [if_pos h3] at hg
            rcases List.mem_cons.mp hg with rfl | hg
            · rcases List.mem_cons.mp hq with rfl | hq
              · exact List.mem_cons_self _ _
              · rw [List.partition_eq_filter_filter] at hq
                exact List.mem_cons_of_mem _ (List.mem_of_mem_filter hq)
            · have hq' := ih _ g hg q hq
              rw [List.partition_eq_filter_filter] at hq'
              exact List.mem_cons_of_mem _ (List.mem_of_mem_filter hq')
          · rw [if_neg h3] at hg
            have hq' := ih _ g hg q hq
            rw [List.partition_eq_filter_filter] at hq'
            exact List.mem_cons_of_mem _ (List.mem_of_mem_filter hq')

theorem finalizeAll_ok : ∀ (gs : List (List (Nat × Article)))
    (finals : List (Nat × Article)), finalizeAll gs = .ok finals →
    ∀ r ∈ finals, ∃ g ∈ gs, finalizeGroup g = .ok r := by
  intro gs
  induction gs with
  | nil =>
      intro finals h r hr
      simp only [finalizeAll] at h
      injection h with h'
      subst h'
      cases hr
  | cons g0 gs ih =>
      intro finals h r hr
      simp only [finalizeAll] at h
      rcases hf : finalizeGroup g0 with e | r0 <;> rw [hf] at h
      · exact Except.noConfusion h
      · rcases ha : finalizeAll gs with e | rs <;> rw [ha] at h
        · exact Except.noConfusion h
        · injection h with h'
          subst h'
          rcases List.mem_cons.mp hr with rfl | hr
          · exact ⟨g0, List.mem_cons_self _ _, hf⟩
          · obtain ⟨g, hg, hok⟩ := ih rs ha r hr
            exact ⟨g, List.mem_cons_of_mem _ hg, hok⟩

/-- Whatever `finalizeGroup` emits is one of the group's own members with
its five raw fields intact, the `verified` flag set and a `source_count`. -/
theorem finalizeGroup_ok_base (g : List (Nat × Article)) (r : Nat × Article)
    (h : finalizeGroup g = .ok r) :
    ∃ q ∈ g, r.1 = q.1 ∧ articleBase r.2 = articleBase q.2 ∧
      r.2.verified = true ∧ r.2.source_count = some g.length := by
  cases g with
  | nil => exact Except.noConfusion h
  | cons x xs =>
      simp only [finalizeGroup] at h
      rcases hs : sourcesOf (x :: xs) with _ | srcs <;> rw [hs] at h
      · exact Except.noConfusion h
      · injection h with h'
        subst h'
        exact ⟨pyMaxBy x xs, pyMaxBy_mem xs x, rfl, rfl, rfl, rfl⟩

theorem mem_enumFrom_get : ∀ (l : List Article) (n : Nat) (q : Nat × Article),
    q ∈ l.enumFrom n → l.get? (q.1 - n) = some q.2 ∧ n ≤ q.1 := by
  intro l
  induction l with
  | nil => intro n q hq; cases hq
  | cons a l ih =>
      intro n q hq
      simp only [List.enumFrom] at hq
      rcases List.mem_cons.mp hq with rfl | hq
      · exact ⟨by simp, le_refl n⟩
      · obtain ⟨hget, hle⟩ := ih (n + 1) q hq
        constructor
        · have h1 : q.1 - n = (q.1 - (n + 1)) + 1 := by omega
          rw [h1]
          simpa using hget
        · omega

theorem enum_get (raw : List Article) (q : Nat × Article) (hq : q ∈ raw.enum) :
    raw.get? q.1 = some q.2 := by
  have := (mem_enumFrom_get raw 0 q hq).1
  simpa using this

theorem list_set_self {α : Type} : ∀ (l : List α) (i : Nat) (a : α),
    l.get? i = some a → l.set i a = l := by
  intro l
  induction l with
  | nil => intro i a h; simp at h
  | cons b l ih =>
      intro i a h
      cases i with
      | zero =>
          simp only [List.get?] at h
          injection h with h1
          simp [h1]
      | succ i =>
          simp only [List.get?] at h
          simp [ih i a h]

/-- Folding the canonical-member write-backs over the pool never changes
any article's five raw fields. -/
theorem foldl_set_base (raw : List Article) : ∀ (finals : List (Nat × Article))
    (pool : List Article),
    pool.map articleBase = raw.map articleBase →
    (∀ q ∈ finals, (raw.map articleBase).get? q.1 = some (articleBase q.2)) →
    (finals.foldl (fun p q => p.set q.1 q.2) pool).map articleBase =
      raw.map articleBase := by
  intro finals
  induction finals with
  | nil => intro pool hpool _; exact hpool
  | cons q finals ih =>
      intro pool hpool hq
      simp only [List.foldl_cons]
      apply ih
      · rw [List.map_set, hpool]
        exact list_set_self _ _ _ (hq q (List.mem_cons_self _ _))
      · intro q' hq'
        exact hq q' (List.mem_cons_of_mem _ hq')

theorem insertDesc_mem : ∀ (l : List Article) (a v : Article),
    v ∈ insertDesc a l → v = a ∨ v ∈ l := by
  intro l
  induction l with
  | nil =>
      intro a v hv
      simp only [insertDesc, List.mem_singleton] at hv
      exact Or.inl hv
  | cons b bs ih =>
      intro a v hv
      simp only [insertDesc] at hv
      split_ifs at hv
      · rcases List.mem_cons.mp hv with rfl | hv
        · exact Or.inl rfl
        · exact Or.inr hv
      · rcases List.mem_cons.mp hv with rfl | hv
        · exact Or.inr (List.mem_cons_self _ _)
        · rcases ih a v hv with h | h
          · exact Or.inl h
          · exact Or.inr (List.mem_cons_of_mem _ h)

theorem foldl_insert_mem : ∀ (l acc : List Article) (v : Article),
    v ∈ l.foldl (fun acc a => insertDesc a acc) acc → v ∈ acc ∨ v ∈ l := by
  intro l
  induction l with
  | nil => intro acc v hv; exact Or.inl hv
  | cons a l ih =>
      intro acc v hv
      simp only [List.foldl_cons] at hv
      rcases ih (insertDesc a acc) v hv with h | h
      · rcases insertDesc_mem acc a v h with rfl | h2
        · exact Or.inr (List.mem_cons_self _ _)
        · exact Or.inl h2
      · exact Or.inr (List.mem_cons_of_mem _ h)

theorem pySortDesc_mem (l : List Article) (v : Article) (hv : v ∈ pySortDesc l) :
    v ∈ l := by
  rcases foldl_insert_mem l [] v hv with h | h
  · cases h
  · exact h

/-- C9 (amended): a successful `verify_news` run leaves every pool entry's
five raw fields (`source`, `title`, `body`, `url`, `timestamp`) unchanged,
but it does NOT leave the records themselves unchanged: the canonical
member of each accepted cluster is mutated in place (it acquires
`verified = true` and a `source_count`), and the emitted VerifiedArticles
are those same mutated records, not freshly created ones. -/
theorem verify_preserves_base_fields (hashF : String → Nat) (raw pool out : List Article)
    (h : verify_news hashF raw = .ok (pool, out)) :
    pool.map articleBase = raw.map articleBase ∧
    (∀ v ∈ out, v.verified = true ∧ v.source_count ≠ none) := by
  simp only [verify_news] at h
  rcases hf : finalizeAll (article_groups hashF
      ((raw.enum).filter (fun p => !(is_opinion_piece p.2)))) with e | finals <;>
    rw [hf] at h
  · exact Except.noConfusion h
  · simp only [Except.ok.injEq, Prod.mk.injEq] at h
    obtain ⟨hpool, hout⟩ := h
    constructor
    · rw [← hpool]
      apply foldl_set_base raw finals raw rfl
      intro q hq
      obtain ⟨g, hg, hok⟩ := finalizeAll_ok _ finals hf q hq
      obtain ⟨m, hm, hi, hbase, hver, hsc⟩ := finalizeGroup_ok_base g q hok
      have hmem : m ∈ (raw.enum).filter (fun p => !(is_opinion_piece p.2)) :=
        article_groupsF_members hashF _ _ _ hg m hm
      have hget := enum_get raw m (List.mem_of_mem_filter hmem)
      rw [hi, List.get?_map, hget]
      simp [hbase]
    · intro v hv
      rw [← hout] at hv
      have hv2 : v ∈ finals.map (fun q => q.2) :=
        pySortDesc_mem _ v (List.take_subset _ _ hv)
      obtain ⟨q, hq, rfl⟩ := List.mem_map.mp hv2
      obtain ⟨g, hg, hok⟩ := finalizeAll_ok _ finals hf q hq
      obtain ⟨m, hm, hi, hbase, hver, hsc⟩ := finalizeGroup_ok_base g q hok
      refine ⟨hver, ?_⟩
      rw [hsc]
      simp

/-- C9 counterexample: a concrete successful run mutates an input record in
place: afterwards the pool's first article carries `verified = true` and
`source_count = 3`, although the input record had neither key. -/
theorem verify_mutates_input_counterexample :
    (artToday "a").verified = false ∧ (artToday "a").source_count = none ∧
    (verify_news hashOne [artToday "a", artToday "b", artToday "c"]).map
      (fun r => r.1.map (fun x => (x.verified, x.source_count))) =
      .ok [(true, some 3), (false, none), (false, none)] := by
  decide

/-- The first input of the concrete C9 run after its in-place mutation. -/
def artTodayVerified : Article :=
  { artToday "a" with
    verified := true
    source_count := some 3
    sources := some ["a", "b", "c"]
    category := some "general"
    importance := some 1 }

/-- Witness for C9 at a concrete successful run. -/
theorem verify_preserves_base_fields_witness :
    [artTodayVerified, artToday "b", artToday "c"].map articleBase =
      [artToday "a", artToday "b", artToday "c"].map articleBase :=
  (verify_preserves_base_fields hashOne [artToday "a", artToday "b", artToday "c"]
    [artTodayVerified, artToday "b", artToday "c"] [artTodayVerified] (by decide)).1

theorem extract_congr {x y : Article} (h : textOf x = textOf y) :
    extract_key_elements x = extract_key_elements y := by
  simp only [extract_key_elements, h]

theorem jaccard_self (l : List String) (h : l ≠ []) : jaccard l l = some 1 := by
  have hne : l.isEmpty = false := by simpa [List.isEmpty_iff] using h
  have hcard : (l.toFinset ∪ l.toFinset).card ≠ 0 := by
    rw [Finset.union_self]
    simp only [ne_eq, Finset.card_eq_zero, List.toFinset_eq_empty_iff]
    exact h
  simp only [jaccard, hne, Bool.or_self, Bool.false_eq_true, if_false, if_pos hcard]
  congr 1
  rw [Finset.inter_self, Finset.union_self]
  refine div_self ?_
  have hc2 : l.toFinset.card ≠ 0 := by
    simp only [ne_eq, Finset.card_eq_zero, List.toFinset_eq_empty_iff]
    exact h
  exact_mod_cast hc2

theorem sum_ones : ∀ (P : List ℚ), (∀ q ∈ P, q = 1) → P.sum = P.length := by
  intro P
  induction P with
  | nil => simp
  | cons a P ih =>
      intro h
      simp only [List.sum_cons, List.length_cons]
      rw [h a (List.mem_cons_self _ _), ih (fun q hq => h q (List.mem_cons_of_mem _ hq))]
      push_cast
      ring

theorem parts_all_one (P : List ℚ) (hne : P ≠ []) (hall : ∀ q ∈ P, q = 1) :
    (if P.length ≠ 0 then P.sum / (P.length : ℚ) else 0) = 1 := by
  have hl : P.length ≠ 0 := fun h => hne (List.length_eq_zero.mp h)
  rw [if_pos hl, sum_ones P hall]
  exact div_self (by exact_mod_cast hl)

/-- Two articles with the same (non-degenerate) title and body have
similarity exactly 1: the fallback embeddings agree and are non-zero and
every key-element field is extracted identically. -/
theorem self_similarity_one (hashF : String → Nat) (t b : String)
    (hemb : hashF (t ++ " " ++ b) % 1000 ≠ 0)
    (hkey : extract_key_elements (mkArticle none (some t) (some b) none none) ≠
      ⟨[], [], [], []⟩)
    (x y : Article)
    (hx : x.title = some t) (hxb : x.body = some b)
    (hy : y.title = some t) (hyb : y.body = some b) :
    calculate_similarity hashF x y = 1 := by
  have htx : textOf x = t ++ " " ++ b := by simp [textOf, hx, hxb]
  have hty : textOf y = t ++ " " ++ b := by simp [textOf, hy, hyb]
  have htm : textOf (mkArticle none (some t) (some b) none none) = t ++ " " ++ b := by
    simp [textOf, mkArticle]
  have hkx : extract_key_elements x =
      extract_key_elements (mkArticle none (some t) (some b) none none) :=
    extract_congr (htx.trans htm.symm)
  have hky : extract_key_elements y =
      extract_key_elements (mkArticle none (some t) (some b) none none) :=
    extract_congr (hty.trans htm.symm)
  have hembx : get_text_embedding hashF (t ++ " " ++ b) ≠ 0 := by
    simpa [get_text_embedding] using hemb
  simp only [calculate_similarity]
  rw [htx, hty, hkx, hky]
  set K := extract_key_elements (mkArticle none (some t) (some b) none none) with hK
  have hcos : cosineSim (get_text_embedding hashF (t ++ " " ++ b))
      (get_text_embedding hashF (t ++ " " ++ b)) = 1 := by
    simp [cosineSim, hembx]
  set P := List.reduceOption [jaccard K.who K.who, jaccard K.what K.what,
    jaccard K.whereL K.whereL, jaccard K.whenL K.whenL] with hP
  have hallP : ∀ q ∈ P, q = 1 := by
    intro q hq
    rw [hP, List.reduceOption_mem_iff] at hq
    simp only [List.mem_cons, List.not_mem_nil, or_false] at hq
    rcases hq with h | h | h | h
    · by_cases hf : K.who = []
      · rw [hf] at h
        exact Option.noConfusion h
      · rw [jaccard_self _ hf] at h
        exact Option.some.inj h
    · by_cases hf : K.what = []
      · rw [hf] at h
        exact Option.noConfusion h
      · rw [jaccard_self _ hf] at h
        exact Option.some.inj h
    · by_cases hf : K.whereL = []
      · rw [hf] at h
        exact Option.noConfusion h
      · rw [jaccard_self _ hf] at h
        exact Option.some.inj h
    · by_cases hf : K.whenL = []
      · rw [hf] at h
        exact Option.noConfusion h
      · rw [jaccard_self _ hf] at h
        exact Option.some.inj h
  have hex : K.who ≠ [] ∨ K.what ≠ [] ∨ K.whereL ≠ [] ∨ K.whenL ≠ [] := by
    by_contra hc
    push_neg at hc
    obtain ⟨h1, h2, h3, h4⟩ := hc
    refine hkey ?_
    calc K = ⟨K.who, K.what, K.whereL, K.whenL⟩ := rfl
      _ = ⟨[], [], [], []⟩ := by rw [h1, h2, h3, h4]
  have hPne : P ≠ [] := by
    rcases hex with hf | hf | hf | hf
    · have h1m : (1 : ℚ) ∈ P := by
        refine List.reduceOption_mem_iff.mpr ?_
        rw [jaccard_self K.who hf]
        exact List.mem_cons_self _ _
      exact List.ne_nil_of_mem h1m
    · have h1m : (1 : ℚ) ∈ P := by
        refine List.reduceOption_mem_iff.mpr ?_
        rw [jaccard_self K.what hf]
        exact List.mem_cons_of_mem _ (List.mem_cons_self _ _)
      exact List.ne_nil_of_mem h1m
    · have h1m : (1 : ℚ) ∈ P := by
        refine List.reduceOption_mem_iff.mpr ?_
        rw [jaccard_self K.whereL hf]
        exact List.mem_cons_of_mem _ (List.mem_cons_of_mem _ (List.mem_cons_self _ _))
      exact List.ne_nil_of_mem h1m
    · have h1m : (1 : ℚ) ∈ P := by
        refine List.reduceOption_mem_iff.mpr ?_
        rw [jaccard_self K.whenL hf]
        exact List.mem_cons_of_mem _ (List.mem_cons_of_mem _
          (List.mem_cons_of_mem _ (List.mem_cons_self _ _)))
      exact List.ne_nil_of_mem h1m
  rw [hcos, parts_all_one P hPne hallP]
  norm_num

theorem sourcesOf_some : ∀ (g : List (Nat × Article)),
    (∀ q ∈ g, q.2.source ≠ none) → ∃ ss, sourcesOf g = some ss := by
  intro g
  induction g with
  | nil => intro _; exact ⟨[], rfl⟩
  | cons q qs ih =>
      intro h
      obtain ⟨ss, hss⟩ := ih (fun p hp => h p (List.mem_cons_of_mem _ hp))
      rcases hq : q.2.source with _ | s
      · exact absurd hq (h q (List.mem_cons_self _ _))
      · exact ⟨s :: ss, by simp only [sourcesOf, hq, hss]⟩

theorem finalizeGroup_ok_of_sources (x : Nat × Article) (xs : List (Nat × Article))
    (ss : List String) (hss : sourcesOf (x :: xs) = some ss) :
    ∃ r, finalizeGroup (x :: xs) = .ok r ∧
      r.2.source_count = some (x :: xs).length := by
  simp only [finalizeGroup]
  rw [hss]
  exact ⟨_, rfl, rfl⟩

/-- C1 (amended): a pool of 3 or more articles sharing one title and body
(all carrying a `source` key), none filtered as opinion, whose shared text
yields at least one non-empty key-element field and a non-zero fallback
embedding, is clustered into exactly one accepted cluster and emitted as
exactly one VerifiedArticle whose `source_count` is the pool size. -/
theorem identical_pool_one_cluster (hashF : String → Nat) (t b : String)
    (l : List Article) (hlen : 3 ≤ l.length)
    (hall : ∀ x ∈ l, x.title = some t ∧ x.body = some b ∧ x.source ≠ none)
    (hop : ∀ x ∈ l, is_opinion_piece x = false)
    (hemb : hashF (t ++ " " ++ b) % 1000 ≠ 0)
    (hkey : extract_key_elements (mkArticle none (some t) (some b) none none) ≠
      ⟨[], [], [], []⟩) :
    (verify_news hashF l).map (fun r => r.2.map (fun v => v.source_count)) =
      .ok [some l.length] := by
  cases l with
  | nil => simp at hlen
  | cons a0 rest =>
  have hfac : ((a0 :: rest).enum).filter (fun p => !(is_opinion_piece p.2)) =
      (a0 :: rest).enum := by
    refine List.filter_eq_self.mpr ?_
    intro p hp
    have hp2 : p.2 ∈ a0 :: rest := List.get?_mem (mem_enumFrom_get _ 0 p hp).1
    simp [hop p.2 hp2]
  have ha0 := hall a0 (List.mem_cons_self _ _)
  have hpred : ∀ q ∈ rest.enumFrom 1,
      decide (simThreshold < calculate_similarity hashF a0 q.2) = true := by
    intro q hq
    have hq2 : q.2 ∈ rest := List.get?_mem (mem_enumFrom_get rest 1 q hq).1
    have hq3 := hall q.2 (List.mem_cons_of_mem _ hq2)
    rw [self_similarity_one hashF t b hemb hkey a0 q.2 ha0.1 ha0.2.1 hq3.1 hq3.2.1]
    exact decide_eq_true (by norm_num [simThreshold])
  have hpart : (rest.enumFrom 1).partition
      (fun c => decide (simThreshold < calculate_similarity hashF a0 c.2)) =
      (rest.enumFrom 1, []) := by
    have h1 : (rest.enumFrom 1).filter
        (fun c => decide (simThreshold < calculate_similarity hashF a0 c.2)) =
        rest.enumFrom 1 := List.filter_eq_self.mpr hpred
    have h2 : (rest.enumFrom 1).filter
        (not ∘ fun c => decide (simThreshold < calculate_similarity hashF a0 c.2)) =
        [] := by
      refine List.filter_eq_nil_iff.mpr ?_
      intro q hq
      simp [hpred q hq]
    rw [List.partition_eq_filter_filter, h1, h2]
  have hlen3 : 3 ≤ ((0, a0) :: rest.enumFrom 1).length := by
    simp only [List.length_cons, List.enumFrom_length]
    simpa using hlen
  have hgroups : article_groups hashF ((a0 :: rest).enum) =
      [(0, a0) :: rest.enumFrom 1] := by
    show article_groupsF hashF ((a0 :: rest).enum).length ((a0 :: rest).enum) = _
    have he : (a0 :: rest).enum = (0, a0) :: rest.enumFrom 1 := rfl
    rw [he]
    simp only [List.length_cons]
    simp only [article_groupsF]
    rw [hpart, if_pos hlen3]
    simp only [article_groupsF]
  have hsrc : ∀ q ∈ (0, a0) :: rest.enumFrom 1, q.2.source ≠ none := by
    intro q hq
    rcases List.mem_cons.mp hq with rfl | hq
    · exact ha0.2.2
    · have hq2 : q.2 ∈ rest := List.get?_mem (mem_enumFrom_get rest 1 q hq).1
      exact (hall q.2 (List.mem_cons_of_mem _ hq2)).2.2
  obtain ⟨ss, hss⟩ := sourcesOf_some _ hsrc
  obtain ⟨r, hfgr, hrc⟩ := finalizeGroup_ok_of_sources (0, a0) (rest.enumFrom 1) ss hss
  have hfin : finalizeAll [(0, a0) :: rest.enumFrom 1] = .ok [r] := by
    simp only [finalizeAll, hfgr]
  simp only [verify_news]
  rw [hfac, hgroups, hfin]
  simp only [Except.map, List.map_cons, List.map_nil, pySortDesc, List.foldl_cons,
    List.foldl_nil, insertDesc, List.take, hrc, List.length_cons, List.enumFrom_length]

/-- C1 counterexample: three articles with identical title "abc" and body
"xyz" (pairwise distinct sources, none an opinion piece) whose text matches
no key-element pattern.  Their pairwise similarity is 0.7·1 + 0.3·0 = 0.7,
which does not exceed the 0.8 threshold, so clustering yields three
singleton groups, no accepted cluster, and an empty output instead of the
claimed single VerifiedArticle with source_count 3. -/
theorem identical_pool_counterexample :
    (artPlain "s1").title = (artPlain "s2").title ∧
    (artPlain "s2").title = (artPlain "s3").title ∧
    (artPlain "s1").body = (artPlain "s2").body ∧
    (artPlain "s2").body = (artPlain "s3").body ∧
    (artPlain "s1").source ≠ (artPlain "s2").source ∧
    (artPlain "s1").source ≠ (artPlain "s3").source ∧
    (artPlain "s2").source ≠ (artPlain "s3").source ∧
    is_opinion_piece (artPlain "s1") = false ∧
    is_opinion_piece (artPlain "s2") = false ∧
    is_opinion_piece (artPlain "s3") = false ∧
    calculate_similarity hashOne (artPlain "s1") (artPlain "s2") = 7/10 ∧
    verify_news hashOne [artPlain "s1", artPlain "s2", artPlain "s3"] =
      .ok ([artPlain "s1", artPlain "s2", artPlain "s3"], []) := by
  decide

/-- Witness for C1 at a concrete pool of three identical articles whose
text contains the temporal keyword pattern. -/
theorem identical_pool_one_cluster_witness :
    (verify_news hashOne [artToday "a", artToday "b", artToday "c"]).map
      (fun r => r.2.map (fun v => v.source_count)) = .ok [some 3] :=
  identical_pool_one_cluster hashOne "आज" "" [artToday "a", artToday "b", artToday "c"]
    (by decide) (by decide) (by decide) (by decide) (by decide)
